import Mathlib

/-!
# Verification of the YourPersonaChecker scoring and classification engine

Shallow embedding of the repository's scoring core:

* `Core.calculateScore`        — `src/core.js` `calculateScore` (no input validation)
* `Refactored.calculateScore`  — refactored core's `calculateScore` (validates the
  Likert value and returns 0 on violation), together with its helper
  `Refactored.isValidLikertValue`
* `Core.determineMBTIType`     — `determineMBTIType` (weighted stack totals,
  descending sort, confidence with ε = 1e-6 and clamping to [0,100])
* `App.normalizeScore`         — `normalizeScore` (linear [-20,20] → [0,100] with
  clamp), and the refactored core's variant that clamps before rounding
* `App.handleAnswer` / `App.reset` — the session accumulator: undo-then-reapply
  score revision keyed by question id, and wholesale reset
* `App.fisherYatesShuffle` / `App.shuffleQuestionsWithConstraints` — the
  constrained shuffle with its 1000-attempt budget and fallback

JavaScript numbers are modelled exactly: every quantity the engine manipulates
is rational except the item score, whose power law `|d| ^ 1.2` is irrational,
so the item scorer and the per-dimension score vector live in `ℝ` (via
`Real.rpow`) while the classifier and normalizer — whose own arithmetic is
purely rational — are embedded over `ℚ`, keeping them computable.
Randomness (`Math.random`) is modelled by an explicit oracle argument, and the
DOM / animation plumbing around the engine is out of scope, as in the spec.
-/

/-- The 8 cognitive functions (`FUNCTIONS` in core.js): the scored dimensions. -/
inductive CognitiveFunction
  | Ni | Ne | Si | Se | Ti | Te | Fi | Fe
deriving DecidableEq, Fintype, Repr

/-- The 16 personality-type labels (keys of `COGNITIVE_STACKS`). -/
inductive MBTIType
  | INTJ | INTP | ENTJ | ENTP | INFJ | INFP | ENFJ | ENFP
  | ISTJ | ISFJ | ESTJ | ESFJ | ISTP | ISFP | ESTP | ESFP
deriving DecidableEq, Fintype, Repr

/-- `COGNITIVE_STACKS` from core.js: each type's ordered 4-function stack. -/
def COGNITIVE_STACKS : MBTIType → List CognitiveFunction
  | .INTJ => [.Ni, .Te, .Fi, .Se]
  | .INTP => [.Ti, .Ne, .Si, .Fe]
  | .ENTJ => [.Te, .Ni, .Se, .Fi]
  | .ENTP => [.Ne, .Ti, .Fe, .Si]
  | .INFJ => [.Ni, .Fe, .Ti, .Se]
  | .INFP => [.Fi, .Ne, .Si, .Te]
  | .ENFJ => [.Fe, .Ni, .Se, .Ti]
  | .ENFP => [.Ne, .Fi, .Te, .Si]
  | .ISTJ => [.Si, .Te, .Fi, .Ne]
  | .ISFJ => [.Si, .Fe, .Ti, .Ne]
  | .ESTJ => [.Te, .Si, .Ne, .Fi]
  | .ESFJ => [.Fe, .Si, .Ne, .Ti]
  | .ISTP => [.Ti, .Se, .Ni, .Fe]
  | .ISFP => [.Fi, .Se, .Ni, .Te]
  | .ESTP => [.Se, .Ti, .Fe, .Ni]
  | .ESFP => [.Se, .Fi, .Te, .Ni]

/-- The enumeration order of `COGNITIVE_STACKS`' keys, as `Object.entries`
iterates them (insertion order of the object literal in core.js). -/
def typeList : List MBTIType :=
  [.INTJ, .INTP, .ENTJ, .ENTP, .INFJ, .INFP, .ENFJ, .ENFP,
   .ISTJ, .ISFJ, .ESTJ, .ESFJ, .ISTP, .ISFP, .ESTP, .ESFP]

namespace Core

/-- `const weights = [4, 2, 1, 0.5]` in `determineMBTIType` (equally, the
refactored core's `JUNG_FUNCTION_WEIGHTS` in stack order). -/
def stackWeights : List ℚ := [4, 2, 1, 1/2]

/-- The weighted total the `determineMBTIType` loop accumulates for one type:
`totalScore += functionScores[func] * weights[i]` over the stack positions. -/
def typeScore (functionScores : CognitiveFunction → ℚ) (t : MBTIType) : ℚ :=
  (List.zipWith (fun f w => functionScores f * w) (COGNITIVE_STACKS t) stackWeights).sum

/-- `1e-6`, the `CONFIDENCE_CALCULATION_EPSILON` guarding the division. -/
def confidenceEpsilon : ℚ := 1e-6

/-- Result record of `determineMBTIType`. -/
structure MBTIResult where
  type : MBTIType
  confidence : ℤ
  top2 : MBTIType × MBTIType
  typeScores : MBTIType → ℚ

/-- The list `Object.entries(typeScores).sort((a, b) => b[1] - a[1])`:
the 16 `(type, total)` pairs sorted by total, descending.  The JS comparator
puts `a` before `b` exactly when `b[1] ≤ a[1]`, which is the `le` relation
handed to the sort here. -/
def sortedTypes (functionScores : CognitiveFunction → ℚ) : List (MBTIType × ℚ) :=
  (typeList.map (fun t => (t, typeScore functionScores t))).mergeSort
    (fun a b => decide (b.2 ≤ a.2))

/-- `determineMBTIType` from core.js: weighted stack totals, descending sort,
best and runner-up, and the rounded-then-clamped confidence
`Math.max(0, Math.min(Math.round(100 * (best - second) / (|best| + |second| + 1e-6)), 100))`.
The sorted list always has 16 ≥ 2 entries, so the fallback branch is dead. -/
def determineMBTIType (functionScores : CognitiveFunction → ℚ) : MBTIResult :=
  match sortedTypes functionScores with
  | best :: second :: _ =>
      { type := best.1
        confidence :=
          max 0 (min (round ((100 : ℚ) * ((best.2 - second.2) /
            (|best.2| + |second.2| + confidenceEpsilon)))) 100)
        top2 := (best.1, second.1)
        typeScores := fun t => typeScore functionScores t }
  | _ =>
      { type := .INTJ, confidence := 0, top2 := (.INTJ, .INTJ)
        typeScores := fun t => typeScore functionScores t }

end Core

/-- The mock score vector of `smoke-test.js`
(`{Ni: 15, Ne: -5, Si: -10, Se: -15, Ti: 10, Te: 5, Fi: -5, Fe: 0}`). -/
def mockScores : CognitiveFunction → ℚ
  | .Ni => 15 | .Ne => -5 | .Si => -10 | .Se => -15
  | .Ti => 10 | .Te => 5 | .Fi => -5 | .Fe => 0

namespace Core

/-- `calculateScore` from `src/core.js`.  No input validation: the reversal
remap, the deviation from the midpoint 3, and the power-law emphasis
`Math.sign(base) * Math.pow(Math.abs(base), 1.2)` are applied to whatever
`value` is passed.  The input is a JS number (here `ℚ`); the power law makes
the output irrational, hence `ℝ`. -/
noncomputable def calculateScore (value : ℚ) (isReverse : Bool) : ℝ :=
  let actualValue : ℚ := if isReverse then 6 - value else value
  let base : ℝ := (actualValue : ℝ) - 3
  Real.sign base * |base| ^ (1.2 : ℝ)

end Core

namespace Refactored

/-- `isValidLikertValue` from the refactored core:
`Number.isInteger(value) && value >= 1 && value <= 5`. -/
def isValidLikertValue (value : ℚ) : Bool :=
  value.den == 1 && decide (1 ≤ value) && decide (value ≤ 5)

/-- `calculateScore` from the refactored core (the module `smoke-test.js`
exercises): identical to `Core.calculateScore` except that an invalid Likert
value is reported (console error) and scored as exactly 0. -/
noncomputable def calculateScore (value : ℚ) (isReverse : Bool) : ℝ :=
  if isValidLikertValue value then
    let actualValue : ℚ := if isReverse then 6 - value else value
    let deviation : ℝ := (actualValue : ℝ) - 3
    Real.sign deviation * |deviation| ^ (1.2 : ℝ)
  else 0

/-- `normalizeScore` from the refactored core: linear map of `[-20, 20]` onto
`[0, 100]`, clamped and then rounded
(`Math.round(Math.max(0, Math.min(100, normalized)))`). -/
def normalizeScore (rawScore : ℚ) : ℤ :=
  let normalized := (rawScore - (-20)) / (20 - (-20)) * (100 - 0) + 0
  round (max 0 (min 100 normalized))

end Refactored

namespace App

/-- `SCORE_MIN` from app.js. -/
def SCORE_MIN : ℚ := -20

/-- `SCORE_MAX` from app.js. -/
def SCORE_MAX : ℚ := 20

/-- `normalizeScore` from app.js:
`Math.max(0, Math.min(100, Math.round(((rawScore - SCORE_MIN) / (SCORE_MAX - SCORE_MIN)) * 100)))`
— the same linear map, but rounded before clamping. -/
def normalizeScore (rawScore : ℚ) : ℤ :=
  max 0 (min 100 (round ((rawScore - SCORE_MIN) / (SCORE_MAX - SCORE_MIN) * 100)))

/-- A stored answer record, `{value, isReverse}` as `handleAnswer` saves it. -/
structure Answer where
  value : ℚ
  isReverse : Bool
deriving DecidableEq

/-- One entry of the question bank: `{id, text, type, reverse}` (the display
text plays no role in scoring and is omitted). -/
structure Question where
  id : ℕ
  type : CognitiveFunction
  reverse : Bool
deriving DecidableEq

/-- The session state built by `createDefaultState`: current position, the
answer map keyed by question id (a JS object, here a partial map), the
per-function score vector and the result flag. -/
@[ext] structure SessionState where
  currentQuestion : ℕ
  answers : ℕ → Option Answer
  functionScores : CognitiveFunction → ℝ
  showResult : Bool

/-- `createDefaultState()` from app.js: a fresh all-empty, all-zero state. -/
def createDefaultState : SessionState :=
  { currentQuestion := 0
    answers := fun _ => none
    functionScores := fun _ => 0
    showResult := false }

/-- The state mutation performed by `handleAnswer(value)` for the current
`question` (app.js lines 142–166): if an old answer exists for `question.id`,
subtract its score — computed from the *stored* value and the question's
reversal flag — from `functionScores[question.type]`, then store
`{value, isReverse: question.reverse}` and add the new score.  The stored
answer is always a record here, so the source's `typeof oldAnswerData ===
'object'` test always selects `.value`; the asynchronous screen transition
(`setTimeout` advancing `currentQuestion` / `showResult`) is UI plumbing
outside the accumulator and is not part of this mutation. -/
noncomputable def handleAnswer (question : Question) (value : ℚ)
    (s : SessionState) : SessionState :=
  let funcType := question.type
  let isReverse := question.reverse
  let oldAnswer := s.answers question.id
  let scoresAfterUndo : CognitiveFunction → ℝ :=
    match oldAnswer with
    | some oldAnswerData => fun f =>
        if f = funcType then
          s.functionScores f - Core.calculateScore oldAnswerData.value isReverse
        else s.functionScores f
    | none => s.functionScores
  let delta := Core.calculateScore value isReverse
  { s with
    answers := fun i =>
      if i = question.id then some ⟨value, isReverse⟩ else s.answers i
    functionScores := fun f =>
      if f = funcType then scoresAfterUndo f + delta else scoresAfterUndo f }

/-- `reset()` from app.js: `state = createDefaultState()` — the whole session
state is replaced by a fresh default state. -/
def reset (_ : SessionState) : SessionState := createDefaultState

/-- The contribution one question makes to its dimension's score given the
current answer map: the Item Scorer applied to the stored value and stored
reversal flag when an answer is recorded, 0 when none is. -/
noncomputable def contribution (answers : ℕ → Option Answer) (q : Question) : ℝ :=
  match answers q.id with
  | some a => Core.calculateScore a.value a.isReverse
  | none => 0

/-- The spec's ScoreVector invariant: every dimension's accumulated score is
the sum, over the bank's questions of that dimension, of the recorded
answers' item scores. -/
def scoreInvariant (questions : List Question) (s : SessionState) : Prop :=
  ∀ d : CognitiveFunction,
    s.functionScores d =
      ((questions.filter (fun q => decide (q.type = d))).map
        (fun q => contribution s.answers q)).sum

/-- Auxiliary reachability invariant: every recorded answer belongs to a bank
question of that id and carries that question's reversal flag (true of every
state the app can build, since `handleAnswer` always stores
`question.reverse`). -/
def answersConsistent (questions : List Question) (s : SessionState) : Prop :=
  ∀ i a, s.answers i = some a →
    ∃ q ∈ questions, q.id = i ∧ q.reverse = a.isReverse

/-- The session states reachable from the initial state through answer
recordings (for bank questions) and resets. -/
inductive Reachable (questions : List Question) : SessionState → Prop
  | init : Reachable questions createDefaultState
  | step {s : SessionState} {q : Question} (v : ℚ) :
      Reachable questions s → q ∈ questions →
      Reachable questions (handleAnswer q v s)
  | reset {s : SessionState} :
      Reachable questions s → Reachable questions (App.reset s)

/-- `fisherYatesShuffle`'s swap `[arr[i], arr[j]] = [arr[j], arr[i]]`, on
lists (a no-op when an index is out of range, which never happens in the
shuffle's loop). -/
def listSwap {α : Type} (l : List α) (i j : ℕ) : List α :=
  match l.get? i, l.get? j with
  | some a, some b => (l.set i b).set j a
  | _, _ => l

/-- The shuffle loop: for `i` from `n-1` down to `1`, pick
`j = Math.floor(Math.random() * (i + 1))` — a uniformly random index in
`[0, i]`, modelled by `rand i % (i + 1)` for an arbitrary oracle `rand` —
and swap positions `i` and `j`. -/
def fisherYatesAux {α : Type} (rand : ℕ → ℕ) (l : List α) : ℕ → List α
  | 0 => l
  | i + 1 => fisherYatesAux rand (listSwap l (i + 1) (rand (i + 1) % (i + 2))) i

/-- `fisherYatesShuffle` from app.js, with the random draws supplied by the
oracle `rand`. -/
def fisherYatesShuffle {α : Type} (rand : ℕ → ℕ) (l : List α) : List α :=
  fisherYatesAux rand l (l.length - 1)

/-- The `hasConsecutive` check of `shuffleQuestionsWithConstraints`: does some
adjacent pair share its scored dimension (`shuffled[i].type ===
shuffled[i-1].type`)? -/
def hasConsecutive : List Question → Bool
  | q1 :: q2 :: rest => decide (q1.type = q2.type) || hasConsecutive (q2 :: rest)
  | _ => false

/-- `maxAttempts = 1000`. -/
def maxAttempts : ℕ := 1000

/-- The retry loop of `shuffleQuestionsWithConstraints`, counting down the
remaining attempts: each attempt draws a fresh shuffle (`rands attempt` is
attempt number `attempt`'s stream of random picks) and returns it if it has
no adjacent repeat; once the budget is exhausted the fallback returns one
more unconstrained shuffle. -/
def shuffleGo (rands : ℕ → ℕ → ℕ) (questions : List Question) :
    ℕ → List Question
  | 0 => fisherYatesShuffle (rands maxAttempts) questions
  | fuel + 1 =>
      let attempt := maxAttempts - (fuel + 1)
      let shuffled := fisherYatesShuffle (rands attempt) questions
      if hasConsecutive shuffled then shuffleGo rands questions fuel
      else shuffled

/-- `shuffleQuestionsWithConstraints` from app.js: up to `maxAttempts = 1000`
constrained attempts, then the fallback shuffle. -/
def shuffleQuestionsWithConstraints (rands : ℕ → ℕ → ℕ)
    (questions : List Question) : List Question :=
  shuffleGo rands questions maxAttempts

/-- The number of shuffles the retry loop itself performs (the fallback's
extra shuffle not counted), mirroring `shuffleGo`'s recursion. -/
def shuffleLoopAttempts (rands : ℕ → ℕ → ℕ) (questions : List Question) :
    ℕ → ℕ
  | 0 => 0
  | fuel + 1 =>
      let attempt := maxAttempts - (fuel + 1)
      let shuffled := fisherYatesShuffle (rands attempt) questions
      if hasConsecutive shuffled then shuffleLoopAttempts rands questions fuel + 1
      else 1

end App

/-! ## Helper lemmas -/

theorem round_rat_mono {x y : ℚ} (h : x ≤ y) : round x ≤ round y := by
  rw [round_eq, round_eq]
  exact Int.floor_mono (by linarith)

theorem round_rat_hundred : round (100 : ℚ) = 100 := by
  norm_num [round_eq]

/-- Rounding commutes with clamping to the integer bounds 0 and 100:
`Math.max(0, Math.min(100, Math.round(x)))` equals
`Math.round(Math.max(0, Math.min(100, x)))`. -/
theorem clamp_round_comm (x : ℚ) :
    max 0 (min 100 (round x)) = round (max 0 (min 100 x)) := by
  rcases le_total x 0 with h0 | h0
  · have hrx : round x ≤ 0 := by
      have := round_rat_mono h0
      simpa using this
    have h100 : x ≤ 100 := h0.trans (by norm_num)
    rw [min_eq_right h100, max_eq_left h0, round_zero,
      min_eq_right (hrx.trans (by norm_num)), max_eq_left hrx]
  · rcases le_total x 100 with h1 | h1
    · have hrx0 : 0 ≤ round x := by
        have := round_rat_mono h0
        simpa using this
      have hrx100 : round x ≤ 100 := by
        have := round_rat_mono h1
        simpa [round_rat_hundred] using this
      rw [min_eq_right h1, max_eq_right h0, min_eq_right hrx100, max_eq_right hrx0]
    · have hrx : 100 ≤ round x := by
        have := round_rat_mono h1
        simpa [round_rat_hundred] using this
      rw [min_eq_left h1, max_eq_right (by norm_num : (0:ℚ) ≤ 100),
        min_eq_left hrx, max_eq_right (by norm_num : (0:ℤ) ≤ 100),
        round_rat_hundred]

/-- The sign of `Real.sign d * |d| ^ 1.2` is the sign of `d`. -/
theorem sign_mul_abs_rpow (d : ℝ) :
    Real.sign (Real.sign d * |d| ^ (1.2 : ℝ)) = Real.sign d := by
  rcases lt_trichotomy d 0 with hd | hd | hd
  · have habs : (0:ℝ) < |d| := abs_pos.mpr hd.ne
    have hpow : (0:ℝ) < |d| ^ (1.2 : ℝ) := Real.rpow_pos_of_pos habs _
    rw [Real.sign_of_neg hd]
    have : (-1 : ℝ) * |d| ^ (1.2 : ℝ) < 0 := by nlinarith
    rw [Real.sign_of_neg this]
  · subst hd
    simp [Real.sign_zero]
  · have habs : (0:ℝ) < |d| := abs_pos.mpr hd.ne'
    have hpow : (0:ℝ) < |d| ^ (1.2 : ℝ) := Real.rpow_pos_of_pos habs _
    rw [Real.sign_of_pos hd]
    have : (0:ℝ) < 1 * |d| ^ (1.2 : ℝ) := by nlinarith
    rw [Real.sign_of_pos this]

/-! ## Item scorer claims -/

/-- C2 (code-level divergence evidence): the refactored core's `calculateScore`
is exactly `Core.calculateScore` gated by `isValidLikertValue` — an invalid
Likert value (here `0`, and the non-integer `5/2`) is scored as exactly `0` —
but `src/core.js`'s `calculateScore` performs no validation at all and maps
the invalid input `0` to `-(3 ^ 1.2) ≈ -3.74 ≠ 0`. -/
theorem calculateScore_invalid_input_divergence :
    Core.calculateScore 0 false = -(3 ^ (1.2 : ℝ)) ∧
    Core.calculateScore 0 false ≠ 0 ∧
    Refactored.calculateScore 0 false = 0 ∧
    Refactored.calculateScore (5/2) true = 0 ∧
    (∀ (v : ℚ) (r : Bool),
      Refactored.calculateScore v r =
        if Refactored.isValidLikertValue v then Core.calculateScore v r else 0) := by
  have hpow : (0:ℝ) < 3 ^ (1.2 : ℝ) := Real.rpow_pos_of_pos (by norm_num) _
  have hsign : Real.sign (-3 : ℝ) = -1 := Real.sign_of_neg (by norm_num)
  have hcore : Core.calculateScore 0 false = -(3 ^ (1.2 : ℝ)) := by
    simp only [Core.calculateScore]
    norm_num [hsign]
  have hv0 : Refactored.isValidLikertValue 0 = false := by decide
  have hden : (5/2 : ℚ).den = 2 := by norm_num
  have hv52 : Refactored.isValidLikertValue (5/2) = false := by
    simp [Refactored.isValidLikertValue, hden]
  refine ⟨hcore, ?_, ?_, ?_, ?_⟩
  · rw [hcore]
    intro hzero
    nlinarith
  · simp [Refactored.calculateScore, hv0]
  · simp [Refactored.calculateScore, hv52]
  · intro v r
    cases hv : Refactored.isValidLikertValue v <;>
      simp [Refactored.calculateScore, Core.calculateScore, hv]

/-- C3: for every integer Likert value in [1,5] and every reversal flag, the
Item Scorer remaps `value' = 6 - value` when reversed, takes the deviation
`value' - 3`, and returns `sign(deviation) * |deviation| ^ 1.2`; a deviation
of 0 yields exactly 0, the result's sign equals the deviation's sign, and on
this valid domain the refactored (validating) scorer agrees. -/
theorem calculateScore_valid_formula (n : ℤ) (r : Bool)
    (h1 : 1 ≤ n) (h5 : n ≤ 5) :
    Core.calculateScore (n : ℚ) r =
      Real.sign (((if r then 6 - n else n : ℤ) : ℝ) - 3) *
        |((if r then 6 - n else n : ℤ) : ℝ) - 3| ^ (1.2 : ℝ) ∧
    ((((if r then 6 - n else n : ℤ) : ℝ) - 3) = 0 →
      Core.calculateScore (n : ℚ) r = 0) ∧
    Real.sign (Core.calculateScore (n : ℚ) r) =
      Real.sign (((if r then 6 - n else n : ℤ) : ℝ) - 3) ∧
    Refactored.calculateScore (n : ℚ) r = Core.calculateScore (n : ℚ) r := by
  have hform : Core.calculateScore (n : ℚ) r =
      Real.sign (((if r then 6 - n else n : ℤ) : ℝ) - 3) *
        |((if r then 6 - n else n : ℤ) : ℝ) - 3| ^ (1.2 : ℝ) := by
    cases r <;> simp only [Core.calculateScore, if_true, if_false] <;> push_cast <;> ring_nf
  refine ⟨hform, ?_, ?_, ?_⟩
  · intro hd
    rw [hform, hd]
    simp
  · rw [hform]
    exact sign_mul_abs_rpow _
  · have hvalid : Refactored.isValidLikertValue (n : ℚ) = true := by
      simp [Refactored.isValidLikertValue, Rat.den_intCast]
      constructor
      · exact_mod_cast h1
      · exact_mod_cast h5
    simp only [Refactored.calculateScore, Core.calculateScore, hvalid, if_true]

/-- C3 witness: the theorem applied at value 5, not reversed. -/
theorem calculateScore_valid_formula_witness :
    (1 : ℤ) ≤ 5 ∧ (5 : ℤ) ≤ 5 ∧
    (Core.calculateScore ((5 : ℤ) : ℚ) false =
      Real.sign (((if false then 6 - 5 else 5 : ℤ) : ℝ) - 3) *
        |((if false then 6 - 5 else 5 : ℤ) : ℝ) - 3| ^ (1.2 : ℝ) ∧
    ((((if false then 6 - 5 else 5 : ℤ) : ℝ) - 3) = 0 →
      Core.calculateScore ((5 : ℤ) : ℚ) false = 0) ∧
    Real.sign (Core.calculateScore ((5 : ℤ) : ℚ) false) =
      Real.sign (((if false then 6 - 5 else 5 : ℤ) : ℝ) - 3) ∧
    Refactored.calculateScore ((5 : ℤ) : ℚ) false =
      Core.calculateScore ((5 : ℤ) : ℚ) false) :=
  ⟨by decide, by decide,
    calculateScore_valid_formula 5 false (by decide) (by decide)⟩

/-! ## Session accumulator claims -/

/-- C4: recording `(q, v1)` and then `(q, v2)` yields exactly the session state
that recording only `(q, v2)` from the same starting state yields — the old
contribution is exactly removed — and, as the `v1 = v2` special case,
recording the same answer twice in a row equals recording it once. -/
theorem handleAnswer_revision_replace (s : App.SessionState) (q : App.Question)
    (v1 v2 : ℚ) :
    App.handleAnswer q v2 (App.handleAnswer q v1 s) = App.handleAnswer q v2 s ∧
    App.handleAnswer q v1 (App.handleAnswer q v1 s) = App.handleAnswer q v1 s := by
  have key : ∀ a b : ℚ,
      App.handleAnswer q b (App.handleAnswer q a s) = App.handleAnswer q b s := by
    intro a b
    cases h : s.answers q.id with
    | none =>
      apply App.SessionState.ext
      · simp [App.handleAnswer, h]
      · funext i
        by_cases hi : i = q.id <;> simp [App.handleAnswer, h, hi]
      · funext f
        by_cases hf : f = q.type <;> simp [App.handleAnswer, h, hf]
      · simp [App.handleAnswer, h]
    | some old =>
      apply App.SessionState.ext
      · simp [App.handleAnswer, h]
      · funext i
        by_cases hi : i = q.id <;> simp [App.handleAnswer, h, hi]
      · funext f
        by_cases hf : f = q.type <;> simp [App.handleAnswer, h, hf]
      · simp [App.handleAnswer, h]
  exact ⟨key v1 v2, key v1 v1⟩

/-- C5: `reset` discards every recorded answer, returns every one of the 8
dimension scores to exactly 0, and puts the session position back at the
start (with the result flag cleared). -/
theorem reset_clears_session (s : App.SessionState) :
    (∀ i, (App.reset s).answers i = none) ∧
    (∀ d, (App.reset s).functionScores d = 0) ∧
    (App.reset s).currentQuestion = 0 ∧
    (App.reset s).showResult = false :=
  ⟨fun _ => rfl, fun _ => rfl, rfl, rfl⟩

/-- C10: recording an answer for question `q` touches at most
`functionScores[q.type]` and the answer entry keyed `q.id`: every other
dimension's score and every other question id's answer entry are unchanged. -/
theorem handleAnswer_frame (s : App.SessionState) (q : App.Question) (v : ℚ) :
    (∀ d, d ≠ q.type →
      (App.handleAnswer q v s).functionScores d = s.functionScores d) ∧
    (∀ i, i ≠ q.id → (App.handleAnswer q v s).answers i = s.answers i) := by
  constructor
  · intro d hd
    cases h : s.answers q.id <;> simp [App.handleAnswer, h, hd]
  · intro i hi
    simp [App.handleAnswer, hi]

/-- C10 witness: the frame theorem applied to a concrete question of dimension
`Ni` with id 1 — dimension `Ne` and answer entry 2 are untouched. -/
theorem handleAnswer_frame_witness :
    (CognitiveFunction.Ne ≠ (⟨1, .Ni, false⟩ : App.Question).type ∧
      (App.handleAnswer ⟨1, .Ni, false⟩ 5 App.createDefaultState).functionScores .Ne =
        App.createDefaultState.functionScores .Ne) ∧
    ((2 : ℕ) ≠ (⟨1, .Ni, false⟩ : App.Question).id ∧
      (App.handleAnswer ⟨1, .Ni, false⟩ 5 App.createDefaultState).answers 2 =
        App.createDefaultState.answers 2) :=
  ⟨⟨by decide,
    (handleAnswer_frame App.createDefaultState ⟨1, .Ni, false⟩ 5).1 .Ne (by decide)⟩,
   ⟨by decide,
    (handleAnswer_frame App.createDefaultState ⟨1, .Ni, false⟩ 5).2 2 (by decide)⟩⟩

/-! ## Score normalizer claim -/

/-- C8: `normalizeScore` maps a raw score linearly from [-20, 20] to [0, 100]
(`round(((raw - (-20)) / 40) * 100)` on the theoretical range), clamps every
result into [0, 100] (so out-of-range inputs saturate), agrees with the
refactored core's clamp-before-round variant everywhere, and hits the
boundary values `-20 ↦ 0`, `0 ↦ 50`, `20 ↦ 100`, `-999 ↦ 0`, `999 ↦ 100`. -/
theorem normalizeScore_spec :
    (∀ r : ℚ, 0 ≤ App.normalizeScore r ∧ App.normalizeScore r ≤ 100) ∧
    (∀ r : ℚ, -20 ≤ r → r ≤ 20 →
      App.normalizeScore r = round ((r - (-20)) / 40 * 100)) ∧
    (∀ r : ℚ, App.normalizeScore r = Refactored.normalizeScore r) ∧
    App.normalizeScore (-20) = 0 ∧ App.normalizeScore 0 = 50 ∧
    App.normalizeScore 20 = 100 ∧ App.normalizeScore (-999) = 0 ∧
    App.normalizeScore 999 = 100 := by
  refine ⟨?_, ?_, ?_, ?_, ?_, ?_, ?_, ?_⟩
  · intro r
    exact ⟨le_max_left _ _, max_le (by norm_num) (min_le_left _ _)⟩
  · intro r hlo hhi
    have hinner : (r - App.SCORE_MIN) / (App.SCORE_MAX - App.SCORE_MIN) * 100 =
        (r - (-20)) / 40 * 100 := by
      unfold App.SCORE_MIN App.SCORE_MAX
      ring_nf
    have hval : (r - (-20)) / 40 * 100 = (r + 20) * (5/2) := by ring
    have h0 : (0 : ℚ) ≤ (r - (-20)) / 40 * 100 := by rw [hval]; linarith
    have h100 : (r - (-20)) / 40 * 100 ≤ 100 := by rw [hval]; linarith
    have hr0 : 0 ≤ round ((r - (-20)) / 40 * 100) := by
      have := round_rat_mono h0
      simpa using this
    have hr100 : round ((r - (-20)) / 40 * 100) ≤ 100 := by
      have := round_rat_mono h100
      simpa [round_rat_hundred] using this
    rw [App.normalizeScore, hinner, min_eq_right hr100, max_eq_right hr0]
  · intro r
    have hinner : (r - App.SCORE_MIN) / (App.SCORE_MAX - App.SCORE_MIN) * 100 =
        (r - (-20)) / (20 - (-20)) * (100 - 0) + 0 := by
      unfold App.SCORE_MIN App.SCORE_MAX
      ring_nf
    rw [App.normalizeScore, Refactored.normalizeScore, hinner, clamp_round_comm]
  · norm_num [App.normalizeScore, App.SCORE_MIN, App.SCORE_MAX, round_eq]
  · norm_num [App.normalizeScore, App.SCORE_MIN, App.SCORE_MAX, round_eq]
  · norm_num [App.normalizeScore, App.SCORE_MIN, App.SCORE_MAX, round_eq]
  · norm_num [App.normalizeScore, App.SCORE_MIN, App.SCORE_MAX, round_eq]
  · norm_num [App.normalizeScore, App.SCORE_MIN, App.SCORE_MAX, round_eq]

/-- C8 witness: the in-range linear-map clause applied at raw score 10. -/
theorem normalizeScore_spec_witness :
    (-20 : ℚ) ≤ 10 ∧ (10 : ℚ) ≤ 20 ∧
    App.normalizeScore 10 = round (((10 : ℚ) - (-20)) / 40 * 100) :=
  ⟨by norm_num, by norm_num,
    normalizeScore_spec.2.1 10 (by norm_num) (by norm_num)⟩

/-! ## Classifier lemmas -/

theorem mem_typeList (t : MBTIType) : t ∈ typeList := by
  cases t <;> simp [typeList]

theorem sortedTypes_perm (fs : CognitiveFunction → ℚ) :
    (Core.sortedTypes fs).Perm (typeList.map (fun t => (t, Core.typeScore fs t))) :=
  List.mergeSort_perm _ _

theorem self_mem_sortedTypes (fs : CognitiveFunction → ℚ) (t : MBTIType) :
    (t, Core.typeScore fs t) ∈ Core.sortedTypes fs :=
  (sortedTypes_perm fs).mem_iff.mpr (List.mem_map_of_mem _ (mem_typeList t))

theorem snd_eq_typeScore_of_mem {fs : CognitiveFunction → ℚ} {p : MBTIType × ℚ}
    (hp : p ∈ Core.sortedTypes fs) : p.2 = Core.typeScore fs p.1 := by
  have hp' := (sortedTypes_perm fs).mem_iff.mp hp
  rcases List.mem_map.mp hp' with ⟨t, _, ht⟩
  cases ht
  rfl

theorem sortedTypes_pairwise (fs : CognitiveFunction → ℚ) :
    (Core.sortedTypes fs).Pairwise (fun a b => decide (b.2 ≤ a.2) = true) := by
  apply List.sorted_mergeSort
  · intro a b c hab hbc
    simp only [decide_eq_true_eq] at *
    exact le_trans hbc hab
  · intro a b
    simp only [Bool.or_eq_true, decide_eq_true_eq]
    exact le_total b.2 a.2

theorem sortedTypes_shape (fs : CognitiveFunction → ℚ) :
    ∃ best second rest, Core.sortedTypes fs = best :: second :: rest := by
  have hlen : (Core.sortedTypes fs).length = 16 := by
    rw [Core.sortedTypes, List.length_mergeSort, List.length_map]
    rfl
  rcases h : Core.sortedTypes fs with _ | ⟨a, _ | ⟨b, rest⟩⟩
  · rw [h] at hlen
    simp at hlen
  · rw [h] at hlen
    simp at hlen
  · exact ⟨a, b, rest, rfl⟩

/-- C6: each category's total is the weighted sum of the score vector over its
4-function stack with weights [4, 2, 1, 0.5]; the returned `type`'s total is
≥ every category's total, and the runner-up's total is ≥ every category's
total except (possibly) the top category's own. -/
theorem determineMBTIType_total_order (fs : CognitiveFunction → ℚ) :
    (∀ t s0 s1 s2 s3, COGNITIVE_STACKS t = [s0, s1, s2, s3] →
      Core.typeScore fs t = fs s0 * 4 + fs s1 * 2 + fs s2 * 1 + fs s3 * (1/2)) ∧
    (∀ t, Core.typeScore fs t ≤
      Core.typeScore fs (Core.determineMBTIType fs).type) ∧
    (∀ t, t ≠ (Core.determineMBTIType fs).type →
      Core.typeScore fs t ≤
        Core.typeScore fs (Core.determineMBTIType fs).top2.2) := by
  obtain ⟨best, second, rest, hs⟩ := sortedTypes_shape fs
  have heqd := Core.determineMBTIType.eq_def fs
  rw [hs] at heqd
  have htype : (Core.determineMBTIType fs).type = best.1 := by rw [heqd]
  have htop2 : (Core.determineMBTIType fs).top2 = (best.1, second.1) := by
    rw [heqd]
  have hbest2 : best.2 = Core.typeScore fs best.1 :=
    snd_eq_typeScore_of_mem (by rw [hs]; exact List.mem_cons_self _ _)
  have hsecond2 : second.2 = Core.typeScore fs second.1 :=
    snd_eq_typeScore_of_mem
      (by rw [hs]; exact List.mem_cons_of_mem _ (List.mem_cons_self _ _))
  have hpw := sortedTypes_pairwise fs
  rw [hs, List.pairwise_cons] at hpw
  obtain ⟨hbest_ge, hpw2⟩ := hpw
  rw [List.pairwise_cons] at hpw2
  obtain ⟨hsecond_ge, _⟩ := hpw2
  refine ⟨?_, ?_, ?_⟩
  · intro t s0 s1 s2 s3 hstack
    rw [Core.typeScore, hstack]
    simp [Core.stackWeights]
    ring
  · intro t
    rw [htype]
    have hmem := self_mem_sortedTypes fs t
    rw [hs] at hmem
    rcases List.mem_cons.mp hmem with heq | hmem2
    · rw [← heq]
    · have hle := hbest_ge _ hmem2
      simp only [decide_eq_true_eq] at hle
      calc Core.typeScore fs t = ((t, Core.typeScore fs t) : MBTIType × ℚ).2 := rfl
        _ ≤ best.2 := hle
        _ = Core.typeScore fs best.1 := hbest2
  · intro t hne
    rw [htype] at hne
    rw [htop2]
    have hmem := self_mem_sortedTypes fs t
    rw [hs] at hmem
    rcases List.mem_cons.mp hmem with heq | hmem2
    · exact absurd (congrArg Prod.fst heq) hne
    · rcases List.mem_cons.mp hmem2 with heq2 | hmem3
      · rw [← heq2]
      · have hle := hsecond_ge _ hmem3
        simp only [decide_eq_true_eq] at hle
        calc Core.typeScore fs t = ((t, Core.typeScore fs t) : MBTIType × ℚ).2 := rfl
          _ ≤ second.2 := hle
          _ = Core.typeScore fs second.1 := hsecond2

/-- C7: the returned confidence is an integer in [0, 100] equal to
`round(clamp(100 * (top - second) / (|top| + |second| + 1e-6), 0, 100))`
for the top two totals (the code clamps after rounding, which coincides),
and whenever all 16 category totals are exactly equal the confidence is 0. -/
theorem determineMBTIType_confidence (fs : CognitiveFunction → ℚ) :
    (0 ≤ (Core.determineMBTIType fs).confidence ∧
      (Core.determineMBTIType fs).confidence ≤ 100) ∧
    (Core.determineMBTIType fs).confidence =
      round (max 0 (min 100 ((100 : ℚ) *
        ((Core.typeScore fs (Core.determineMBTIType fs).type -
            Core.typeScore fs (Core.determineMBTIType fs).top2.2) /
          (|Core.typeScore fs (Core.determineMBTIType fs).type| +
            |Core.typeScore fs (Core.determineMBTIType fs).top2.2| + 1e-6))))) ∧
    ((∀ t t', Core.typeScore fs t = Core.typeScore fs t') →
      (Core.determineMBTIType fs).confidence = 0) := by
  obtain ⟨best, second, rest, hs⟩ := sortedTypes_shape fs
  have heqd := Core.determineMBTIType.eq_def fs
  rw [hs] at heqd
  have htype : (Core.determineMBTIType fs).type = best.1 := by rw [heqd]
  have htop2 : (Core.determineMBTIType fs).top2 = (best.1, second.1) := by
    rw [heqd]
  have hconf : (Core.determineMBTIType fs).confidence =
      max 0 (min (round ((100 : ℚ) * ((best.2 - second.2) /
        (|best.2| + |second.2| + Core.confidenceEpsilon)))) 100) := by
    rw [heqd]
  have hbest2 : best.2 = Core.typeScore fs best.1 :=
    snd_eq_typeScore_of_mem (by rw [hs]; exact List.mem_cons_self _ _)
  have hsecond2 : second.2 = Core.typeScore fs second.1 :=
    snd_eq_typeScore_of_mem
      (by rw [hs]; exact List.mem_cons_of_mem _ (List.mem_cons_self _ _))
  have heps : Core.confidenceEpsilon = (1e-6 : ℚ) := rfl
  refine ⟨⟨?_, ?_⟩, ?_, ?_⟩
  · rw [hconf]
    exact le_max_left _ _
  · rw [hconf]
    exact max_le (by norm_num) (min_le_right _ _)
  · rw [hconf, htype, htop2, ← hbest2, ← hsecond2, heps,
      min_comm (round ((100 : ℚ) * ((best.2 - second.2) /
        (|best.2| + |second.2| + 1e-6)))) 100, clamp_round_comm]
  · intro heq
    rw [hconf]
    have hbs : best.2 = second.2 := by
      rw [hbest2, hsecond2]
      exact heq _ _
    rw [hbs, sub_self, zero_div, mul_zero, round_zero]
    norm_num

/-- The all-zero score vector gives every category the total 0. -/
theorem typeScore_const_zero (t : MBTIType) :
    Core.typeScore (fun _ => 0) t = 0 := by
  cases t <;> simp [Core.typeScore, COGNITIVE_STACKS, Core.stackWeights]

/-- On the all-zero score vector every comparison ties, so the stable sort
returns the 16 pairs in their original enumeration order. -/
theorem sortedTypes_const_zero :
    Core.sortedTypes (fun _ => 0) =
      typeList.map (fun t => (t, Core.typeScore (fun _ => 0) t)) := by
  apply List.mergeSort_of_sorted
  apply List.pairwise_iff_forall_sublist.mpr
  intro a b hsub
  have ha : a ∈ typeList.map (fun t => (t, Core.typeScore (fun _ => 0) t)) :=
    hsub.subset (by simp)
  have hb : b ∈ typeList.map (fun t => (t, Core.typeScore (fun _ => 0) t)) :=
    hsub.subset (by simp)
  rcases List.mem_map.mp ha with ⟨ta, _, hta⟩
  rcases List.mem_map.mp hb with ⟨tb, _, htb⟩
  have ha2 : a.2 = 0 := by rw [← hta]; exact typeScore_const_zero ta
  have hb2 : b.2 = 0 := by rw [← htb]; exact typeScore_const_zero tb
  simp [ha2, hb2]

/-- On the all-zero vector the classifier returns `INTJ` with runner-up
`INTP` (the first two entries of the enumeration order). -/
theorem determineMBTIType_const_zero_eval :
    (Core.determineMBTIType (fun _ => 0)).type = MBTIType.INTJ ∧
    (Core.determineMBTIType (fun _ => 0)).top2.2 = MBTIType.INTP := by
  have h := sortedTypes_const_zero
  rw [typeList] at h
  simp only [List.map] at h
  have heqd := Core.determineMBTIType.eq_def (fun _ => 0)
  rw [h] at heqd
  exact ⟨by rw [heqd], by rw [heqd]⟩

/-- C6 witness: on the all-zero score vector (top category `INTJ`), `ENTJ` is
a category other than the top one, its total is bounded by the runner-up's,
and `INTJ`'s stack expands to the claimed weighted sum. -/
theorem determineMBTIType_total_order_witness :
    (COGNITIVE_STACKS MBTIType.INTJ =
        [CognitiveFunction.Ni, .Te, .Fi, .Se] ∧
      Core.typeScore (fun _ => 0) MBTIType.INTJ =
        (fun _ : CognitiveFunction => (0 : ℚ)) .Ni * 4 +
        (fun _ : CognitiveFunction => (0 : ℚ)) .Te * 2 +
        (fun _ : CognitiveFunction => (0 : ℚ)) .Fi * 1 +
        (fun _ : CognitiveFunction => (0 : ℚ)) .Se * (1/2)) ∧
    (MBTIType.ENTJ ≠ (Core.determineMBTIType (fun _ => 0)).type ∧
      Core.typeScore (fun _ => 0) MBTIType.ENTJ ≤
        Core.typeScore (fun _ => 0)
          (Core.determineMBTIType (fun _ => 0)).top2.2) :=
  have hne : MBTIType.ENTJ ≠ (Core.determineMBTIType (fun _ => 0)).type := by
    rw [determineMBTIType_const_zero_eval.1]
    decide
  ⟨⟨by decide,
    (determineMBTIType_total_order (fun _ => 0)).1 MBTIType.INTJ
      .Ni .Te .Fi .Se (by decide)⟩,
   ⟨hne, (determineMBTIType_total_order (fun _ => 0)).2.2 MBTIType.ENTJ hne⟩⟩

/-- C7 witness: on the all-zero score vector all 16 category totals are
exactly equal, and the confidence the classifier returns is exactly 0. -/
theorem determineMBTIType_confidence_witness :
    (∀ t t', Core.typeScore (fun _ => 0) t = Core.typeScore (fun _ => 0) t') ∧
    (Core.determineMBTIType (fun _ => 0)).confidence = 0 :=
  have hall : ∀ t t',
      Core.typeScore (fun _ => 0) t = Core.typeScore (fun _ => 0) t' := by
    intro t t'
    rw [typeScore_const_zero, typeScore_const_zero]
  ⟨hall, (determineMBTIType_confidence (fun _ => 0)).2.2 hall⟩

/-! ## Shuffle lemmas -/

theorem cons_set_perm {α : Type} {t : List α} {k : ℕ} {b : α} (a : α)
    (h : t.get? k = some b) : (b :: t.set k a).Perm (a :: t) := by
  induction t generalizing k with
  | nil => simp at h
  | cons x xs ih =>
    cases k with
    | zero =>
      simp only [List.get?_cons_zero, Option.some.injEq] at h
      subst h
      simp only [List.set_cons_zero]
      exact List.Perm.swap _ _ _
    | succ k =>
      simp only [List.get?_cons_succ] at h
      simp only [List.set_cons_succ]
      exact (List.Perm.swap x b (xs.set k a)).trans
        (((ih h).cons x).trans (List.Perm.swap a x xs))

theorem listSwap_comm {α : Type} (l : List α) (i j : ℕ) :
    App.listSwap l i j = App.listSwap l j i := by
  by_cases hij : i = j
  · subst hij
    rfl
  · unfold App.listSwap
    cases hi : l.get? i <;> cases hj : l.get? j
    · rfl
    · rfl
    · rfl
    · exact List.set_comm _ _ _ hij

theorem listSwap_zero_perm {α : Type} (x : α) (xs : List α) (k : ℕ) :
    (App.listSwap (x :: xs) 0 k).Perm (x :: xs) := by
  cases k with
  | zero =>
    unfold App.listSwap
    simp [List.set_cons_zero]
  | succ k =>
    unfold App.listSwap
    simp only [List.get?_cons_zero, List.get?_cons_succ]
    cases hk : xs.get? k with
    | none => exact List.Perm.refl _
    | some b =>
      simp only [List.set_cons_zero, List.set_cons_succ]
      exact cons_set_perm x hk

theorem listSwap_perm {α : Type} (l : List α) (i j : ℕ) :
    (App.listSwap l i j).Perm l := by
  induction l generalizing i j with
  | nil =>
    unfold App.listSwap
    simp
  | cons x xs ih =>
    cases i with
    | zero => exact listSwap_zero_perm x xs j
    | succ m =>
      cases j with
      | zero =>
        rw [listSwap_comm]
        exact listSwap_zero_perm x xs (m + 1)
      | succ k =>
        have hred : App.listSwap (x :: xs) (m + 1) (k + 1) =
            x :: App.listSwap xs m k := by
          unfold App.listSwap
          simp only [List.get?_cons_succ]
          cases xs.get? m <;> cases xs.get? k <;>
            simp [List.set_cons_succ]
        rw [hred]
        exact (ih m k).cons x

theorem fisherYatesAux_perm {α : Type} (rand : ℕ → ℕ) (l : List α) (n : ℕ) :
    (App.fisherYatesAux rand l n).Perm l := by
  induction n generalizing l with
  | zero => exact List.Perm.refl _
  | succ i ih =>
    rw [App.fisherYatesAux]
    exact (ih _).trans (listSwap_perm _ _ _)

theorem fisherYatesShuffle_perm {α : Type} (rand : ℕ → ℕ) (l : List α) :
    (App.fisherYatesShuffle rand l).Perm l :=
  fisherYatesAux_perm rand l (l.length - 1)

theorem shuffleGo_perm (rands : ℕ → ℕ → ℕ) (qs : List App.Question) (fuel : ℕ) :
    (App.shuffleGo rands qs fuel).Perm qs := by
  induction fuel with
  | zero => exact fisherYatesShuffle_perm _ _
  | succ f ih =>
    simp only [App.shuffleGo]
    split
    · exact ih
    · exact fisherYatesShuffle_perm _ _

theorem shuffleLoopAttempts_le (rands : ℕ → ℕ → ℕ) (qs : List App.Question)
    (fuel : ℕ) : App.shuffleLoopAttempts rands qs fuel ≤ fuel := by
  induction fuel with
  | zero => exact le_refl _
  | succ f ih =>
    simp only [App.shuffleLoopAttempts]
    split
    · exact Nat.succ_le_succ ih
    · exact Nat.succ_le_succ (Nat.zero_le f)

theorem shuffleGo_path (rands : ℕ → ℕ → ℕ) (qs : List App.Question)
    (fuel : ℕ) :
    App.hasConsecutive (App.shuffleGo rands qs fuel) = false ∨
      App.shuffleGo rands qs fuel =
        App.fisherYatesShuffle (rands App.maxAttempts) qs := by
  induction fuel with
  | zero => exact Or.inr rfl
  | succ f ih =>
    simp only [App.shuffleGo]
    split
    · exact ih
    · next h =>
      left
      simpa using h

/-- C9: for every question sequence and every outcome of the random draws the
constrained shuffle terminates — the retry loop performs at most 1000 shuffle
attempts before the fallback path — and the returned sequence is a
permutation of the input (hence carries the same multiset of question ids) on
both the constraint-satisfying path and the fallback path: the result either
has no adjacent same-dimension pair or is the fallback shuffle. -/
theorem shuffleQuestions_terminates_perm (rands : ℕ → ℕ → ℕ)
    (qs : List App.Question) :
    (App.shuffleQuestionsWithConstraints rands qs).Perm qs ∧
    ((App.shuffleQuestionsWithConstraints rands qs).map App.Question.id).Perm
      (qs.map App.Question.id) ∧
    App.shuffleLoopAttempts rands qs App.maxAttempts ≤ 1000 ∧
    (App.hasConsecutive (App.shuffleQuestionsWithConstraints rands qs) = false ∨
      App.shuffleQuestionsWithConstraints rands qs =
        App.fisherYatesShuffle (rands App.maxAttempts) qs) := by
  have hperm := shuffleGo_perm rands qs App.maxAttempts
  exact ⟨hperm, hperm.map _, shuffleLoopAttempts_le rands qs App.maxAttempts,
    shuffleGo_path rands qs App.maxAttempts⟩

/-! ## Accumulator invariant (C1) -/

theorem question_id_inj {questions : List App.Question}
    (hids : (questions.map App.Question.id).Nodup) :
    ∀ ⦃q1 : App.Question⦄, q1 ∈ questions → ∀ ⦃q2 : App.Question⦄,
      q2 ∈ questions → q1.id = q2.id → q1 = q2 :=
  List.inj_on_of_nodup_map hids

theorem handleAnswer_answers_eq (q : App.Question) (v : ℚ)
    (s : App.SessionState) :
    (App.handleAnswer q v s).answers =
      fun i => if i = q.id then some (⟨v, q.reverse⟩ : App.Answer)
               else s.answers i := rfl

theorem handleAnswer_answers_apply (q : App.Question) (v : ℚ)
    (s : App.SessionState) (i : ℕ) :
    (App.handleAnswer q v s).answers i =
      if i = q.id then some (⟨v, q.reverse⟩ : App.Answer)
      else s.answers i := rfl

/-- Updating the answer stored under `q.id` changes the total contribution of
a duplicate-id-free question list containing `q` by exactly
`new score - old contribution`. -/
theorem sum_contribution_update (answers : ℕ → Option App.Answer)
    (a : App.Answer) (q : App.Question) (L : List App.Question)
    (hq : q ∈ L) (hL : (L.map App.Question.id).Nodup) :
    ((L.map (fun q' => App.contribution
        (fun i => if i = q.id then some a else answers i) q')).sum : ℝ) =
      (L.map (fun q' => App.contribution answers q')).sum
        - App.contribution answers q
        + Core.calculateScore a.value a.isReverse := by
  induction L with
  | nil => cases hq
  | cons x xs ih =>
    rw [List.map_cons, List.nodup_cons] at hL
    rw [List.map_cons, List.map_cons, List.sum_cons, List.sum_cons]
    rcases List.mem_cons.mp hq with rfl | hq'
    · have hhead : App.contribution
          (fun i => if i = q.id then some a else answers i) q =
          Core.calculateScore a.value a.isReverse := by
        unfold App.contribution
        simp
      have htail : ∀ y ∈ xs, App.contribution
          (fun i => if i = q.id then some a else answers i) y =
          App.contribution answers y := by
        intro y hy
        have hyid : y.id ≠ q.id := by
          intro hcontra
          exact hL.1 (hcontra ▸ List.mem_map_of_mem _ hy)
        unfold App.contribution
        simp [hyid]
      rw [hhead, List.map_congr_left htail]
      ring
    · have hxid : x.id ≠ q.id := by
        intro hcontra
        exact hL.1 (hcontra ▸ List.mem_map_of_mem _ hq')
      have hhead : App.contribution
          (fun i => if i = q.id then some a else answers i) x =
          App.contribution answers x := by
        unfold App.contribution
        simp [hxid]
      rw [hhead, ih hq' hL.2]
      ring

theorem default_state_inv (questions : List App.Question) :
    App.answersConsistent questions App.createDefaultState ∧
    App.scoreInvariant questions App.createDefaultState := by
  constructor
  · intro i a h
    exact absurd h (by simp [App.createDefaultState])
  · intro d
    have hzero : ∀ q' ∈ questions.filter (fun q'' => decide (q''.type = d)),
        App.contribution App.createDefaultState.answers q' = 0 := fun _ _ => rfl
    show (0 : ℝ) = _
    rw [List.map_congr_left hzero]
    simp

theorem handleAnswer_preserves_inv {questions : List App.Question}
    (hids : (questions.map App.Question.id).Nodup)
    {s : App.SessionState} {q : App.Question} (hq : q ∈ questions) (v : ℚ)
    (hcons : App.answersConsistent questions s)
    (hinv : App.scoreInvariant questions s) :
    App.answersConsistent questions (App.handleAnswer q v s) ∧
    App.scoreInvariant questions (App.handleAnswer q v s) := by
  constructor
  · intro i a hia
    rw [handleAnswer_answers_apply] at hia
    by_cases hi : i = q.id
    · rw [if_pos hi] at hia
      cases hia
      exact ⟨q, hq, hi.symm, rfl⟩
    · rw [if_neg hi] at hia
      exact hcons i a hia
  · intro d
    have hLnodup : ((questions.filter
        (fun q'' => decide (q''.type = d))).map App.Question.id).Nodup :=
      hids.sublist ((List.filter_sublist _).map _)
    by_cases hd : d = q.type
    · subst hd
      have hqL : q ∈ questions.filter (fun q'' => decide (q''.type = q.type)) :=
        List.mem_filter.mpr ⟨hq, by simp⟩
      have hupdate := sum_contribution_update s.answers ⟨v, q.reverse⟩ q _
        hqL hLnodup
      cases h : s.answers q.id with
      | none =>
        have hc0 : App.contribution s.answers q = 0 := by
          unfold App.contribution
          rw [h]
        have hLHS : (App.handleAnswer q v s).functionScores q.type =
            s.functionScores q.type + Core.calculateScore v q.reverse := by
          simp [App.handleAnswer, h]
        rw [hLHS, handleAnswer_answers_eq, hupdate, hc0, ← hinv q.type]
        ring
      | some oldA =>
        have hflag : oldA.isReverse = q.reverse := by
          obtain ⟨q0, hq0mem, hq0id, hq0rev⟩ := hcons q.id oldA h
          have hq0 : q0 = q := question_id_inj hids hq0mem hq hq0id
          rw [← hq0rev, hq0]
        have hcold : App.contribution s.answers q =
            Core.calculateScore oldA.value q.reverse := by
          unfold App.contribution
          rw [h]
          show Core.calculateScore oldA.value oldA.isReverse = _
          rw [hflag]
        have hLHS : (App.handleAnswer q v s).functionScores q.type =
            s.functionScores q.type - Core.calculateScore oldA.value q.reverse
              + Core.calculateScore v q.reverse := by
          simp [App.handleAnswer, h]
        rw [hLHS, handleAnswer_answers_eq, hupdate, hcold, ← hinv q.type]
    · have hLHS : (App.handleAnswer q v s).functionScores d =
          s.functionScores d := by
        cases h : s.answers q.id <;> simp [App.handleAnswer, h, hd]
      have hsame : ∀ q' ∈ questions.filter (fun q'' => decide (q''.type = d)),
          App.contribution (App.handleAnswer q v s).answers q' =
            App.contribution s.answers q' := by
        intro q' hq'
        obtain ⟨hq'mem, hq'type⟩ := List.mem_filter.mp hq'
        have hq'typed : q'.type = d := by simpa using hq'type
        have hne : q'.id ≠ q.id := by
          intro hcontra
          have hqq : q' = q := question_id_inj hids hq'mem hq hcontra
          exact hd (by rw [← hq'typed, hqq])
        rw [handleAnswer_answers_eq]
        unfold App.contribution
        simp [hne]
      rw [hLHS, List.map_congr_left hsame, ← hinv d]

theorem reachable_inv {questions : List App.Question}
    (hids : (questions.map App.Question.id).Nodup) {s : App.SessionState}
    (hs : App.Reachable questions s) :
    App.answersConsistent questions s ∧ App.scoreInvariant questions s := by
  induction hs with
  | init => exact default_state_inv questions
  | step v hr hq ih => exact handleAnswer_preserves_inv hids hq v ih.1 ih.2
  | reset hr ih => exact default_state_inv questions

/-- C1: in every session state reachable through answer recordings (including
revisions) and resets over a duplicate-id-free question bank, every
dimension's accumulated score equals the sum, over the recorded answers of
that dimension's questions, of the Item Scorer's score for the stored value
and stored reversal flag. -/
theorem scoreVector_invariant (questions : List App.Question)
    (hids : (questions.map App.Question.id).Nodup)
    (s : App.SessionState) (hs : App.Reachable questions s) :
    App.scoreInvariant questions s :=
  (reachable_inv hids hs).2

/-- C1 witness: a two-question bank with distinct ids; the invariant holds in
the state reached by answering the first question with value 4. -/
theorem scoreVector_invariant_witness :
    (([⟨1, .Ni, false⟩, ⟨2, .Te, true⟩] : List App.Question).map
      App.Question.id).Nodup ∧
    App.scoreInvariant [⟨1, .Ni, false⟩, ⟨2, .Te, true⟩]
      (App.handleAnswer ⟨1, .Ni, false⟩ 4 App.createDefaultState) :=
  ⟨by decide,
    scoreVector_invariant [⟨1, .Ni, false⟩, ⟨2, .Te, true⟩] (by decide) _
      (App.Reachable.step 4 App.Reachable.init (by decide))⟩
